import Mathlib

/-
Shallow embedding of the GPX-Bodyboard wave-detection pipeline
(canonical variant: the file containing `detectWavesV2`).

Numbers are modelled by `ℚ` (JS numbers on the reachable inputs are finite;
`NaN`-producing fields such as a missing elapsed time are modelled by
`Option ℚ`).  The transcendental primitives of `Math` (sin, cos, asin,
atan2, log, sqrt, and the constant PI) are not computable over `ℚ`, so the
whole development is parametrised by a bundle `MathPrims` of such
primitives; the two properties recorded in the bundle (`Math.sqrt` returns
a nonnegative value, `Math.asin` is nonnegative on nonnegative inputs)
are facts of the real functions that the source relies on.
-/

structure MathPrims where
  sin : ℚ → ℚ
  cos : ℚ → ℚ
  asin : ℚ → ℚ
  atan2 : ℚ → ℚ → ℚ
  log : ℚ → ℚ
  sqrt : ℚ → ℚ
  pi : ℚ
  sqrt_nonneg : ∀ x, 0 ≤ sqrt x
  asin_nonneg : ∀ x, 0 ≤ x → 0 ≤ asin x

/-- A concrete instance of the primitive bundle, used to evaluate the
definitions on concrete inputs. -/
def zeroPrims : MathPrims where
  sin := fun _ => 0
  cos := fun _ => 0
  asin := fun _ => 0
  atan2 := fun _ _ => 0
  log := fun _ => 0
  sqrt := fun _ => 0
  pi := 0
  sqrt_nonneg := fun _ => le_refl 0
  asin_nonneg := fun _ _ => le_refl 0

/-- JS truncated division toward zero, as used by the `%` operator. -/
def jsTrunc (q : ℚ) : ℤ := if q < 0 then ⌈q⌉ else ⌊q⌋

/-- JS remainder `a % b` (sign of the dividend): `a - b * trunc (a / b)`. -/
def jsMod (a b : ℚ) : ℚ := a - b * (jsTrunc (a / b) : ℚ)

/-- `toRad` : `d * Math.PI / 180`. -/
def toRadQ (M : MathPrims) (d : ℚ) : ℚ := d * M.pi / 180

/-- `normalizeBearing` : `const w = deg % 360; return w < 0 ? w + 360 : w;`
(the `Number.isFinite` guard never fires over `ℚ`). -/
def normalizeBearing (deg : ℚ) : ℚ :=
  let w := jsMod deg 360
  if w < 0 then w + 360 else w

/-- `angularDifference` :
`const diff = Math.abs(normalizeBearing a - normalizeBearing b) % 360;
 return diff > 180 ? 360 - diff : diff;`. -/
def angularDifference (a b : ℚ) : ℚ :=
  let diff := jsMod |normalizeBearing a - normalizeBearing b| 360
  if 180 < diff then 360 - diff else diff

/-- `bearingDegrees(a, b)` : forward azimuth, normalised to `[0, 360)`. -/
def bearingDegQ (M : MathPrims) (alat alon blat blon : ℚ) : ℚ :=
  let lat1 := toRadQ M alat
  let lat2 := toRadQ M blat
  let dLon := toRadQ M (blon - alon)
  let y := M.sin dLon * M.cos lat2
  let x := M.cos lat1 * M.sin lat2 - M.sin lat1 * M.cos lat2 * M.cos dLon
  normalizeBearing (M.atan2 y x * 180 / M.pi)

/-- `haversineDistanceM(a, b)` with `R = 6371000`. -/
def haversineDistanceM (M : MathPrims) (alat alon blat blon : ℚ) : ℚ :=
  let dLat := toRadQ M (blat - alat)
  let dLon := toRadQ M (blon - alon)
  let lat1 := toRadQ M alat
  let lat2 := toRadQ M blat
  let h := M.sin (dLat / 2) * M.sin (dLat / 2) +
    M.cos lat1 * M.cos lat2 * (M.sin (dLon / 2) * M.sin (dLon / 2))
  2 * 6371000 * M.asin (M.sqrt h)

/-- `circularStdDeg(samples)` : `NaN` (here `none`) on an empty sample list,
otherwise `sqrt(max(0, -2 ln R)) * 180 / π` with `R` clamped at `1e-9`.
The `samples.filter(Number.isFinite)` of the source is the identity here:
bearing samples are only ever collected through a finiteness guard. -/
def circularStdDeg (M : MathPrims) (samples : List ℚ) : Option ℚ :=
  if samples = [] then none
  else
    let sinS := (samples.map (fun d => M.sin (toRadQ M d))).sum
    let cosS := (samples.map (fun d => M.cos (toRadQ M d))).sum
    let R := M.sqrt (sinS * sinS + cosS * cosS) / (samples.length : ℚ)
    some (M.sqrt (max 0 (-2 * M.log (max R (1 / 1000000000)))) * 180 / M.pi)

/-
Data model.  A `Seg` is one entry of the `segments` array:
`{a, b, distM, dtS, speedKmh, bearingDeg, accelKmhS}`.  `dtS` is `none`
when a timestamp is missing or invalid (`NaN` in the source), and
`bearingDeg` is `none` when the source would store `NaN`.
-/

structure Seg where
  a : ℚ × ℚ
  b : ℚ × ℚ
  distM : ℚ
  dtS : Option ℚ
  speedKmh : ℚ
  bearingDeg : Option ℚ
  accelKmhS : ℚ
deriving DecidableEq, Repr

/-- `Number.isFinite(s.dtS) && s.dtS > 0 ? s.dtS : 0` — the elapsed time
used by the detector (`const dt = ...` in `detectWavesV2`). -/
def dtPos (s : Seg) : ℚ :=
  match s.dtS with
  | some t => if 0 < t then t else 0
  | none => 0

/-- `Number.isFinite(s.dtS) ? s.dtS : 0` — the elapsed time accumulated by
the local-statistics window (keeps non-positive values). -/
def dtFin (s : Seg) : ℚ := s.dtS.getD 0

/-- One entry of the `localStats` array: `{median, std}`. -/
structure LocalStat where
  median : ℚ
  std : ℚ
deriving DecidableEq, Repr

/-- The statistics computed from one window slice in `computeLocalStats`:
median of the sorted values, and the square root of the Bessel-corrected
variance (denominator `max 1 (n-1)`).  The source computes them from the
sorted copy of the slice. -/
def windowStat (M : MathPrims) (slice : List ℚ) : LocalStat :=
  let sorted := slice.insertionSort (· ≤ ·)
  let mid := sorted.length / 2
  let median :=
    if sorted.length % 2 = 1 then sorted.getD mid 0
    else (sorted.getD (mid - 1) 0 + sorted.getD mid 0) / 2
  let mean := sorted.sum / (sorted.length : ℚ)
  let variance :=
    (sorted.map (fun v => (v - mean) * (v - mean))).sum / (max 1 ((sorted.length : ℚ) - 1))
  { median := median, std := M.sqrt variance }

/-- The per-index body of `computeLocalStats`: `slice.length` is never zero
on the reachable inputs, but the `else {median: 0, std: 0}` branch of the
source is kept. -/
def statAt (M : MathPrims) (slice : List ℚ) : LocalStat :=
  if slice = [] then { median := 0, std := 0 } else windowStat M slice

/-- The `while (timeSpan > winSec && left < right)` loop advancing the left
pointer; the fuel argument is `right - left`, so `left < right` is exactly
`fuel ≠ 0`. -/
def shrinkLeft (winSec : ℚ) (dts : List ℚ) : ℕ → ℕ → ℚ → ℕ × ℚ
  | 0, left, span => (left, span)
  | fuel + 1, left, span =>
    if winSec < span then shrinkLeft winSec dts fuel (left + 1) (span - dts.getD left 0)
    else (left, span)

/-- The main loop of `computeLocalStats`, exposing the loop variables: for
each `right` it returns `(left, timeSpan, localStats[right])` after the
iteration for `right`. -/
def lsGo (M : MathPrims) (winSec : ℚ) (speeds dts : List ℚ) :
    ℕ → ℕ → ℚ → List Seg → List (ℕ × ℚ × LocalStat)
  | _, _, _, [] => []
  | right, left, span, s :: rest =>
    let span1 := span + dtFin s
    let ls := shrinkLeft winSec dts (right - left) left span1
    let slice := (speeds.drop ls.1).take (right + 1 - ls.1)
    (ls.1, ls.2, statAt M slice) :: lsGo M winSec speeds dts (right + 1) ls.1 ls.2 rest

/-- `computeLocalStats(winSec)` : `null` entries (here `none`) when the
segment array is empty or `winSec ≤ 0`, otherwise the two-pointer trailing
window statistics (`speeds = segments.map(s => s.speedKmh || 0)`, which is
the identity over `ℚ`). -/
def computeLocalStats (M : MathPrims) (winSec : ℚ) (segments : List Seg) :
    List (Option LocalStat) :=
  if segments = [] ∨ winSec ≤ 0 then segments.map (fun _ => none)
  else
    let speeds := segments.map (fun s => s.speedKmh)
    let dts := segments.map dtFin
    (lsGo M winSec speeds dts 0 0 0 segments).map (fun e => some e.2.2)

/-
Wave segmenter (`detectWavesV2`).
-/

/-- The candidate accumulator created and mutated by `detectWavesV2`. -/
structure Candidate where
  startIdx : ℕ
  endIdx : ℕ
  distM : ℚ
  durationS : ℚ
  maxKmh : ℚ
  segmentIndices : List ℕ
  bearings : List ℚ
  ended : Bool
  peak : ℚ
deriving DecidableEq, Repr

/-- The options object consumed by `detectWavesV2`.  `dirStdMaxDeg` is an
`Option` so that a non-finite configured maximum (the
`!Number.isFinite(dirStdMaxDeg)` escape of the stability filter) can be
modelled as `none`. -/
structure Options where
  baseThresholdKmh : ℚ
  minDurationS : ℚ
  useAdaptive : Bool
  winSec : ℚ
  kSigma : ℚ
  dropPct : ℚ
  endGraceS : ℚ
  dirStdMaxDeg : Option ℚ
deriving DecidableEq, Repr

/-- The mutable state of the detection loop: the accumulated output
`found`, the active candidate `cur`, and the two timers. -/
structure DetectState where
  found : List Candidate
  cur : Option Candidate
  timeOver : ℚ
  timeUnderPeak : ℚ
deriving DecidableEq, Repr

/-- The state before the loop: `found = []`, `cur = null`, both timers 0. -/
def initDetectState : DetectState :=
  { found := [], cur := none, timeOver := 0, timeUnderPeak := 0 }

/-- The candidate object freshly allocated on `Idle → Active`. -/
def freshCandidate (i : ℕ) : Candidate :=
  { startIdx := i, endIdx := i, distM := 0, durationS := 0, maxKmh := 0,
    segmentIndices := [], bearings := [], ended := false, peak := 0 }

/-- The common candidate extension performed both in the over-threshold
branch and in the not-enough-drop branch:
`cur.endIdx = i; cur.segmentIndices.push(i); cur.distM += ...;
 cur.durationS += dt; if (speed > cur.maxKmh) {maxKmh = peak = speed};
 if (isFinite(bearing)) cur.bearings.push(bearing)`. -/
def extendCand (c : Candidate) (i : ℕ) (s : Seg) (dt : ℚ) : Candidate :=
  { c with
    endIdx := i,
    segmentIndices := c.segmentIndices ++ [i],
    distM := c.distM + s.distM,
    durationS := c.durationS + dt,
    maxKmh := if c.maxKmh < s.speedKmh then s.speedKmh else c.maxKmh,
    peak := if c.maxKmh < s.speedKmh then s.speedKmh else c.peak,
    bearings := c.bearings ++ (match s.bearingDeg with
      | some bg => [bg]
      | none => []) }

/-- `const over = (s.speedKmh >= thr) && dt > 0;`. -/
def overCond (thr : ℚ) (s : Seg) : Prop := thr ≤ s.speedKmh ∧ 0 < dtPos s

instance (thr : ℚ) (s : Seg) : Decidable (overCond thr s) := by
  unfold overCond
  infer_instance

/-- The per-segment threshold:
`let thr = base; if (useAdaptive && local && local[i]) thr = max(base, median + kSigma*std)`. -/
def thresholdAt (cfg : Options) (lstats : Option (List (Option LocalStat))) (i : ℕ) : ℚ :=
  match cfg.useAdaptive, lstats with
  | true, some l =>
    match l.getD i none with
    | some st => max cfg.baseThresholdKmh (st.median + cfg.kSigma * st.std)
    | none => cfg.baseThresholdKmh
  | _, _ => cfg.baseThresholdKmh

/-- The end-of-wave criterion:
`const drop = cur.peak > 0 ? (1 - v / cur.peak) * 100 : 100;`
with `v = s.speedKmh || 0` (the identity over `ℚ`). -/
def jsDrop (c : Candidate) (s : Seg) : ℚ :=
  if 0 < c.peak then (1 - s.speedKmh / c.peak) * 100 else 100

/-- One iteration of the `for (let i = 0; i < segments.length; i++)` loop of
`detectWavesV2`. -/
def detectStep (cfg : Options) (lstats : Option (List (Option LocalStat)))
    (st : DetectState) (i : ℕ) (s : Seg) : DetectState :=
  if overCond (thresholdAt cfg lstats i) s then
    match st.cur with
    | none =>
      { found := st.found, cur := some (extendCand (freshCandidate i) i s (dtPos s)),
        timeOver := 0 + dtPos s, timeUnderPeak := 0 }
    | some c =>
      { found := st.found, cur := some (extendCand c i s (dtPos s)),
        timeOver := st.timeOver + dtPos s, timeUnderPeak := 0 }
  else
    match st.cur with
    | none => st
    | some c =>
      if cfg.dropPct ≤ jsDrop c s then
        if cfg.endGraceS ≤ st.timeUnderPeak + dtPos s then
          { found :=
              if cfg.minDurationS ≤ c.durationS ∧ c.segmentIndices ≠ [] then
                st.found ++ [c]
              else st.found,
            cur := none, timeOver := 0, timeUnderPeak := 0 }
        else
          { st with timeUnderPeak := st.timeUnderPeak + dtPos s }
      else
        { found := st.found, cur := some (extendCand c i s (dtPos s)),
          timeOver := st.timeOver, timeUnderPeak := 0 }

/-- The detection loop, indexing the segments from `i` upward. -/
def detectGo (cfg : Options) (lstats : Option (List (Option LocalStat))) :
    ℕ → List Seg → DetectState → DetectState
  | _, [], st => st
  | i, s :: rest, st => detectGo cfg lstats (i + 1) rest (detectStep cfg lstats st i s)

/-- The end-of-trace close:
`if (cur && cur.durationS >= minDurationS && cur.segmentIndices.length) found.push(cur);`. -/
def detectFinalize (cfg : Options) (st : DetectState) : List Candidate :=
  match st.cur with
  | some c =>
    if cfg.minDurationS ≤ c.durationS ∧ c.segmentIndices ≠ [] then st.found ++ [c]
    else st.found
  | none => st.found

/-- The predicate of the direction-stability filter:
`!Number.isFinite(dirStdMaxDeg) || isNaN(std) || std <= dirStdMaxDeg`. -/
def stableKeep (M : MathPrims) (dirStdMaxDeg : Option ℚ) (w : Candidate) : Bool :=
  match dirStdMaxDeg with
  | none => true
  | some m =>
    match circularStdDeg M w.bearings with
    | none => true
    | some std => decide (std ≤ m)

/-- The `local` array of `detectWavesV2`:
`useAdaptive ? computeLocalStats(winSec) : null`. -/
def detectLocal (M : MathPrims) (cfg : Options) (segments : List Seg) :
    Option (List (Option LocalStat)) :=
  if cfg.useAdaptive then some (computeLocalStats M cfg.winSec segments) else none

/-- The `found` list of `detectWavesV2` after the loop and the end-of-trace
close, before the stability filter. -/
def detectFound (M : MathPrims) (cfg : Options) (segments : List Seg) : List Candidate :=
  detectFinalize cfg
    (detectGo cfg (detectLocal M cfg segments) 0 segments initDetectState)

/-- `detectWavesV2(options)` : the closed candidates surviving the
direction-stability filter. -/
def detectWavesV2 (M : MathPrims) (cfg : Options) (segments : List Seg) : List Candidate :=
  (detectFound M cfg segments).filter (stableKeep M cfg.dirStdMaxDeg)

/-
Geometry/Kinematics engine (`computeSegmentsAndStats`) and the
application-level state.
-/

/-- A parsed track point `{lat, lon, ele, time}`; `time` is the timestamp
in milliseconds (`Date.getTime()`), `none` when missing or invalid. -/
structure Point where
  lat : ℚ
  lon : ℚ
  ele : Option ℚ
  time : Option ℚ
deriving DecidableEq, Repr

/-- The aggregate stats `{distM, durationS, avgKmh, maxKmh}`. -/
structure TrackStats where
  distM : ℚ
  durationS : ℚ
  avgKmh : ℚ
  maxKmh : ℚ
deriving DecidableEq, Repr

/-- One iteration of the loop of `computeSegmentsAndStats`, building the
segment from point `a` to point `b`; `prev` is the previously built segment
(`segments[i-2]`), used for the acceleration field. -/
def mkSeg (M : MathPrims) (prev : Option Seg) (a b : Point) : Seg :=
  let d := haversineDistanceM M a.lat a.lon b.lat b.lon
  let dt : Option ℚ :=
    match a.time, b.time with
    | some tA, some tB => some ((tB - tA) / 1000)
    | _, _ => none
  let speedMS : ℚ :=
    match dt with
    | some t => if 0 < t then d / t else 0
    | none => 0
  let speedKmh := speedMS * 3.6
  -- `Number.isFinite(d)` always holds over `ℚ`, so the bearing is defined.
  let bearing : Option ℚ := some (bearingDegQ M a.lat a.lon b.lat b.lon)
  let accel : ℚ :=
    match prev with
    | some p =>
      match p.dtS with
      | some pt => if 0 < pt then (speedKmh - p.speedKmh) / pt else 0
      | none => 0
    | none => 0
  { a := (a.lat, a.lon), b := (b.lat, b.lon), distM := d, dtS := dt,
    speedKmh := speedKmh, bearingDeg := bearing, accelKmhS := accel }

/-- The segment-building loop of `computeSegmentsAndStats`. -/
def segGo (M : MathPrims) (prev : Option Seg) : Point → List Point → List Seg
  | _, [] => []
  | a, b :: rest => mkSeg M prev a b :: segGo M (some (mkSeg M prev a b)) b rest

/-- The `segments` array computed by `computeSegmentsAndStats`. -/
def computeSegments (M : MathPrims) (points : List Point) : List Seg :=
  match points with
  | [] => []
  | a :: rest => segGo M none a rest

/-- The running aggregation of `computeSegmentsAndStats`:
`if (isFinite(d)) distM += d; if (isFinite(dt) && dt > 0) durationS += dt;
 if (speedKmh > maxKmh) maxKmh = speedKmh;` and finally
`avgKmh = (distM/1000) / (durationS/3600 || 1e-9)`. -/
def statsOfSegments (segs : List Seg) : TrackStats :=
  let distM := (segs.map (fun s => s.distM)).sum
  let durationS := (segs.map dtPos).sum
  let maxKmh := segs.foldl (fun m s => if m < s.speedKmh then s.speedKmh else m) 0
  let hrs := durationS / 3600
  let avgKmh := (distM / 1000) / (if hrs = 0 then 1 / 1000000000 else hrs)
  { distM := distM, durationS := durationS, avgKmh := avgKmh, maxKmh := maxKmh }

/-- `computeSegmentsAndStats()` : the rebuilt segment array and stats. -/
def computeSegmentsAndStats (M : MathPrims) (points : List Point) :
    List Seg × TrackStats :=
  let segs := computeSegments M points
  (segs, statsOfSegments segs)

/-
Wave enrichment (`enrichWave`) — the claims only read the mean-direction
field of an enriched wave, so the embedding keeps the enriched record
restricted to that field (the Leaflet bounds, markers and sparkline fields
are presentation-layer objects outside the data model of the claims).
-/

structure EnrichedWave where
  directionDeg : Option ℚ
deriving DecidableEq, Repr

/-- The mean-direction computation of `enrichWave` (circular mean of the
bearing samples over the recomputed index range, with the straight
start-to-end bearing as fallback when there are no samples). -/
def enrichWaveDir (M : MathPrims) (points : List Point) (segments : List Seg)
    (w : Candidate) : EnrichedWave :=
  let overIdx := (w.segmentIndices.dedup).insertionSort (· ≤ ·)
  let hasOver := overIdx ≠ []
  let start := if hasOver then max 0 (overIdx.headD 0) else max 0 w.startIdx
  let endCandidate := if hasOver then overIdx.getLastD 0 else w.endIdx
  let endI := min (segments.length - 1) endCandidate
  let indices := List.range' start (endI + 1 - start)
  let slice := (points.drop start).take (endI + 2 - start)
  let bearingSamples := indices.filterMap (fun i =>
    match segments[i]? with
    | some s => s.bearingDeg
    | none => none)
  let dir : Option ℚ :=
    if bearingSamples ≠ [] then
      let sinS := (bearingSamples.map (fun d => M.sin (toRadQ M d))).sum
      let cosS := (bearingSamples.map (fun d => M.cos (toRadQ M d))).sum
      if 1 / 1000000 < |sinS| ∨ 1 / 1000000 < |cosS| then
        some (normalizeBearing (M.atan2 sinS cosS * 180 / M.pi))
      else none
    else if 2 ≤ slice.length then
      match slice.headD ⟨0, 0, none, none⟩, slice.getLastD ⟨0, 0, none, none⟩ with
      | f, l => some (bearingDegQ M f.lat f.lon l.lat l.lon)
    else none
  { directionDeg := dir }

/-- The direction post-filter settings of `getDirectionSettings()`
(the stability maximum is carried separately in `Options.dirStdMaxDeg`). -/
structure DirectionSettings where
  enabled : Bool
  direction : ℚ
  tolerance : ℚ
deriving DecidableEq, Repr

/-- The body of the optional direction post-filter of `runWaveDetection`:
`if (!Number.isFinite(w.directionDeg)) return false;
 const delta = angularDifference(w.directionDeg, direction);
 return Number.isFinite(delta) && delta <= tolerance;`. -/
def dirKeep (ds : DirectionSettings) (w : EnrichedWave) : Bool :=
  match w.directionDeg with
  | none => false
  | some d => decide (angularDifference d ds.direction ≤ ds.tolerance)

/-- The `filtered` list of `runWaveDetection`: the post-filter applies only
when the direction filter is enabled. -/
def runDirectionFilter (ds : DirectionSettings) (enriched : List EnrichedWave) :
    List EnrichedWave :=
  if ds.enabled then enriched.filter (dirKeep ds) else enriched

/-- The wave list produced by one `runWaveDetection()` run:
detect, enrich, then optionally direction-filter. -/
def runWaveDetectionModel (M : MathPrims) (cfg : Options) (ds : DirectionSettings)
    (points : List Point) (segments : List Seg) : List EnrichedWave :=
  runDirectionFilter ds
    ((detectWavesV2 M cfg segments).map (enrichWaveDir M points segments))

/-
File loading (`fileInput` change handler).
-/

/-- The module-scope state mutated by the handler. -/
structure AppState where
  points : List Point
  segments : List Seg
  stats : Option TrackStats
  waves : List EnrichedWave
deriving DecidableEq, Repr

/-- The `fileInput` change handler, given the outcome of parsing the chosen
file.  `Except.error` models a thrown parse error (unsupported extension,
invalid GPX, bad CSV): it is raised before `points` is reassigned.  On a
successful parse the handler first assigns `points = parseXXX(text)` and
only then checks `points.length < 2`, so the insufficient-points error is
raised after the `points` state was overwritten. -/
def fileChangeHandler (M : MathPrims) (cfg : Options) (ds : DirectionSettings)
    (st : AppState) (parsed : Except Unit (List Point)) : AppState :=
  match parsed with
  | Except.error _ => st
  | Except.ok pts =>
    if pts.length < 2 then { st with points := pts }
    else
      let sc := computeSegmentsAndStats M pts
      { points := pts, segments := sc.1, stats := some sc.2,
        waves := runWaveDetectionModel M cfg ds pts sc.1 }

/-
Auxiliary predicates used in the statements, and the concrete inputs used
by witnesses and counterexamples.
-/

/-- Modelled from the spec: the Bessel-corrected sample variance of the
(unsorted) window values — mean `Σv/n`, squared deviations summed, divided
by `n - 1` floored at 1.  Compared against the source's computation, which
runs over the sorted copy of the window. -/
def sampleVarianceSpec (l : List ℚ) : ℚ :=
  (l.map (fun v => (v - l.sum / (l.length : ℚ)) * (v - l.sum / (l.length : ℚ)))).sum /
    max 1 ((l.length : ℚ) - 1)

/-- Correctness of one trace entry of the local-statistics loop at global
index `i`: the left pointer trails the right one, the stored statistic is
computed over the index window `[left .. i]` of the speeds, the stored span
is the accumulated elapsed time of that window, and the span respects the
window length unless the window is the single segment `i`. -/
def entryOk (M : MathPrims) (winSec : ℚ) (speeds dts : List ℚ) (i : ℕ)
    (e : ℕ × ℚ × LocalStat) : Prop :=
  e.1 ≤ i
  ∧ e.2.2 = statAt M ((speeds.drop e.1).take (i + 1 - e.1))
  ∧ e.2.1 = ((dts.drop e.1).take (i + 1 - e.1)).sum
  ∧ (e.2.1 ≤ winSec ∨ e.1 = i)

/-- The loop invariant of the detector used for the member-index facts:
all emitted candidates have non-empty, strictly ascending member lists
bounded by the number of processed segments and a validated duration, and
the active candidate (if any) has non-empty, strictly ascending members
below the current position. -/
def StepInv (cfg : Options) (i : ℕ) (st : DetectState) : Prop :=
  (∀ w ∈ st.found,
      w.segmentIndices ≠ []
      ∧ List.Chain' (· < ·) w.segmentIndices
      ∧ (∀ j ∈ w.segmentIndices, j < i)
      ∧ cfg.minDurationS ≤ w.durationS)
  ∧ ∀ c, st.cur = some c →
      c.segmentIndices ≠ []
      ∧ List.Chain' (· < ·) c.segmentIndices
      ∧ ∀ j ∈ c.segmentIndices, j < i

/-- A segment with the given speed, elapsed time and bearing sample, used
to build concrete tracks. -/
def mkSegC (v : ℚ) (dt : Option ℚ) (bg : Option ℚ) : Seg :=
  { a := (0, 0), b := (0, 0), distM := 10, dtS := dt, speedKmh := v,
    bearingDeg := bg, accelKmhS := 0 }

def cfgC1 : Options :=
  { baseThresholdKmh := 15, minDurationS := 0, useAdaptive := false, winSec := 8,
    kSigma := 0.8, dropPct := 50, endGraceS := 2, dirStdMaxDeg := some 25 }

def segsC1 : List Seg := [mkSegC 30 (some 1) none, mkSegC 12 (some 1) none, mkSegC 30 (some 1) none]

def waveC1 : Candidate :=
  { startIdx := 0, endIdx := 2, distM := 20, durationS := 2, maxKmh := 30,
    segmentIndices := [0, 2], bearings := [], ended := false, peak := 30 }

def cfgC2 : Options :=
  { baseThresholdKmh := 15, minDurationS := 0, useAdaptive := false, winSec := 8,
    kSigma := 0.8, dropPct := 50, endGraceS := 2, dirStdMaxDeg := some 25 }

def candC2 : Candidate :=
  { startIdx := 0, endIdx := 0, distM := 10, durationS := 1, maxKmh := 30,
    segmentIndices := [0], bearings := [], ended := false, peak := 30 }

def stC2 : DetectState :=
  { found := [], cur := some candC2, timeOver := 1, timeUnderPeak := 0 }

def segC2 : Seg := mkSegC 12 (some 1) none

def cfgC3 : Options :=
  { baseThresholdKmh := 15, minDurationS := 2, useAdaptive := false, winSec := 8,
    kSigma := 0.8, dropPct := 35, endGraceS := 1, dirStdMaxDeg := some 25 }

def segsC3 : List Seg := [mkSegC 36 (some 10) none]

def cfgC4 : Options :=
  { baseThresholdKmh := 15, minDurationS := 2, useAdaptive := false, winSec := 8,
    kSigma := 0.8, dropPct := 35, endGraceS := 1, dirStdMaxDeg := some 25 }

def dsC4 : DirectionSettings := { enabled := false, direction := 0, tolerance := 45 }

def stC4 : AppState :=
  { points := [⟨1, 2, none, none⟩, ⟨3, 4, none, none⟩],
    segments := [mkSegC 5 (some 1) none], stats := none, waves := [] }

def cfgC5 (t : ℚ) : Options :=
  { baseThresholdKmh := t, minDurationS := 2, useAdaptive := false, winSec := 8,
    kSigma := 0.8, dropPct := 50, endGraceS := 1, dirStdMaxDeg := some 25 }

def segsC5 : List Seg :=
  [mkSegC 30 (some 1) none, mkSegC 30 (some 1) none, mkSegC 12 (some 1) none,
   mkSegC 12 (some 1) none, mkSegC 30 (some 1) none, mkSegC 30 (some 1) none]

def wvC6 : Candidate :=
  { startIdx := 0, endIdx := 1, distM := 20, durationS := 2, maxKmh := 30,
    segmentIndices := [0, 1], bearings := [10, 20], ended := false, peak := 30 }

def wvC6empty : Candidate :=
  { startIdx := 0, endIdx := 1, distM := 20, durationS := 2, maxKmh := 30,
    segmentIndices := [0, 1], bearings := [], ended := false, peak := 30 }

def dsC7 : DirectionSettings := { enabled := true, direction := 0, tolerance := 30 }

def wvC7a : EnrichedWave := { directionDeg := some 10 }

def wvC7b : EnrichedWave := { directionDeg := none }

def wvC7c : EnrichedWave := { directionDeg := some 350 }

def wvC7d : EnrichedWave := { directionDeg := some 100 }

def ptsC8 : List Point :=
  [⟨1, 2, none, some 0⟩, ⟨3, 4, none, some 10000⟩, ⟨5, 6, none, none⟩]

def segsC9 : List Seg :=
  [mkSegC 10 (some 4) none, mkSegC 20 (some 4) none, mkSegC 30 (some 4) none]

def cfgC10 : Options :=
  { baseThresholdKmh := 15, minDurationS := 0, useAdaptive := false, winSec := 8,
    kSigma := 0.8, dropPct := 50, endGraceS := 2, dirStdMaxDeg := some 25 }

def candC10 : Candidate :=
  { startIdx := 0, endIdx := 0, distM := 10, durationS := 1, maxKmh := 30,
    segmentIndices := [0], bearings := [], ended := false, peak := 30 }

def stC10 : DetectState :=
  { found := [], cur := some candC10, timeOver := 1, timeUnderPeak := 0 }

def segC10 : Seg := mkSegC 12 none none
-- Basic range facts about the JS remainder and bearing normalisation.

theorem jsMod_lt (a b : ℚ) (hb : 0 < b) : jsMod a b < b := by
  unfold jsMod jsTrunc
  have h2 : b * (a / b) = a := mul_div_cancel₀ a (ne_of_gt hb)
  split
  · have h1 : (⌈a / b⌉ : ℚ) < a / b + 1 := by
      exact_mod_cast Int.ceil_lt_add_one (a / b)
    have h3 : b * (a / b) < b * ((⌈a / b⌉ : ℚ) + 1) := by
      have : a / b < (⌈a / b⌉ : ℚ) + 1 := lt_of_le_of_lt (Int.le_ceil _) (by linarith)
      exact (mul_lt_mul_left hb).mpr this
    have h4 : b * ((⌈a / b⌉ : ℚ) + 1) = b * (⌈a / b⌉ : ℚ) + b := by ring
    linarith
  · have h1 : a / b < (⌊a / b⌋ : ℚ) + 1 := Int.lt_floor_add_one (a / b)
    have h3 : b * (a / b) < b * ((⌊a / b⌋ : ℚ) + 1) := (mul_lt_mul_left hb).mpr h1
    have h4 : b * ((⌊a / b⌋ : ℚ) + 1) = b * (⌊a / b⌋ : ℚ) + b := by ring
    linarith

theorem neg_lt_jsMod (a b : ℚ) (hb : 0 < b) : -b < jsMod a b := by
  unfold jsMod jsTrunc
  have h2 : b * (a / b) = a := mul_div_cancel₀ a (ne_of_gt hb)
  split
  · have h1 : (⌈a / b⌉ : ℚ) - 1 < a / b := by
      have := Int.ceil_lt_add_one (a / b)
      push_cast at this ⊢
      linarith
    have h3 : b * ((⌈a / b⌉ : ℚ) - 1) < b * (a / b) := (mul_lt_mul_left hb).mpr h1
    have h4 : b * ((⌈a / b⌉ : ℚ) - 1) = b * (⌈a / b⌉ : ℚ) - b := by ring
    linarith
  · have h1 : (⌊a / b⌋ : ℚ) ≤ a / b := Int.floor_le (a / b)
    have h3 : b * (⌊a / b⌋ : ℚ) ≤ b * (a / b) := by
      exact mul_le_mul_of_nonneg_left h1 (le_of_lt hb)
    linarith

theorem jsMod_nonneg_of_nonneg (a b : ℚ) (ha : 0 ≤ a) (hb : 0 < b) :
    0 ≤ jsMod a b := by
  unfold jsMod jsTrunc
  have h2 : b * (a / b) = a := mul_div_cancel₀ a (ne_of_gt hb)
  have hq : 0 ≤ a / b := div_nonneg ha (le_of_lt hb)
  rw [if_neg (not_lt.mpr hq)]
  have h1 : (⌊a / b⌋ : ℚ) ≤ a / b := Int.floor_le (a / b)
  have h3 : b * (⌊a / b⌋ : ℚ) ≤ b * (a / b) := mul_le_mul_of_nonneg_left h1 (le_of_lt hb)
  linarith

theorem normalizeBearing_mem (d : ℚ) :
    0 ≤ normalizeBearing d ∧ normalizeBearing d < 360 := by
  have h1 := jsMod_lt d 360 (by norm_num)
  have h2 := neg_lt_jsMod d 360 (by norm_num)
  by_cases h : jsMod d 360 < 0
  · simp only [normalizeBearing, if_pos h]
    constructor <;> linarith
  · simp only [normalizeBearing, if_neg h]
    push_neg at h
    constructor <;> linarith

theorem angularDifference_mem (a b : ℚ) :
    0 ≤ angularDifference a b ∧ angularDifference a b ≤ 180 := by
  have habs : (0 : ℚ) ≤ |normalizeBearing a - normalizeBearing b| := abs_nonneg _
  have h1 := jsMod_lt |normalizeBearing a - normalizeBearing b| 360 (by norm_num)
  have h2 := jsMod_nonneg_of_nonneg |normalizeBearing a - normalizeBearing b| 360 habs
    (by norm_num)
  by_cases h : 180 < jsMod |normalizeBearing a - normalizeBearing b| 360
  · simp only [angularDifference, if_pos h]
    constructor <;> linarith
  · simp only [angularDifference, if_neg h]
    push_neg at h
    constructor <;> linarith


/-- C7: with the direction post-filter enabled, the retained waves are
exactly the enriched waves whose mean direction is defined and whose
angular difference to the target is at most the tolerance; the angular
difference is the minimum of the two arc distances around the circle,
always lies in [0, 180], and in particular
`angularDifference 10 350 = 20`, not 340. -/
theorem c7_direction_filter (ds : DirectionSettings) (ws : List EnrichedWave)
    (w : EnrichedWave) (hen : ds.enabled = true) :
    (w ∈ runDirectionFilter ds ws ↔
      w ∈ ws ∧ ∃ d, w.directionDeg = some d ∧
        angularDifference d ds.direction ≤ ds.tolerance)
    ∧ (∀ a b : ℚ, 0 ≤ angularDifference a b ∧ angularDifference a b ≤ 180)
    ∧ (∀ a b : ℚ, angularDifference a b =
        min (jsMod |normalizeBearing a - normalizeBearing b| 360)
          (360 - jsMod |normalizeBearing a - normalizeBearing b| 360))
    ∧ angularDifference 10 350 = 20 := by
  refine ⟨?_, angularDifference_mem, ?_, ?_⟩
  · rw [runDirectionFilter, if_pos hen, List.mem_filter]
    constructor
    · rintro ⟨hmem, hkeep⟩
      refine ⟨hmem, ?_⟩
      cases h : w.directionDeg with
      | none => simp [dirKeep, h] at hkeep
      | some d =>
        refine ⟨d, rfl, ?_⟩
        simpa [dirKeep, h] using hkeep
    · rintro ⟨hmem, d, hd, hle⟩
      exact ⟨hmem, by simp [dirKeep, hd, hle]⟩
  · intro a b
    have h2 := jsMod_nonneg_of_nonneg |normalizeBearing a - normalizeBearing b| 360
      (abs_nonneg _) (by norm_num)
    by_cases h : 180 < jsMod |normalizeBearing a - normalizeBearing b| 360
    · simp only [angularDifference, if_pos h]
      exact (min_eq_right (by linarith)).symm
    · simp only [angularDifference, if_neg h]
      push_neg at h
      exact (min_eq_left (by linarith)).symm
  · norm_num [angularDifference, normalizeBearing, jsMod, jsTrunc]

/-- C6: the direction-stability filter keeps a candidate with no bearing
samples, rejects a candidate (for a finite configured maximum) exactly when
its circular standard deviation is defined and exceeds the maximum, the
circular standard deviation of a non-empty sample list is
`sqrt(max(0, -2 ln R)) * 180 / π` with `R` the clamped mean resultant
length, and `detectWavesV2` is exactly the pre-filter candidates filtered
by this predicate. -/
theorem c6_stability_filter (M : MathPrims) (m : ℚ) (w : Candidate)
    (found : List Candidate) :
    (w.bearings = [] → stableKeep M (some m) w = true)
    ∧ (stableKeep M (some m) w = false ↔
        ∃ std, circularStdDeg M w.bearings = some std ∧ m < std)
    ∧ (∀ samples : List ℚ, samples ≠ [] →
        circularStdDeg M samples =
          some (M.sqrt (max 0 (-2 * M.log (max
            (M.sqrt
              ((samples.map (fun d => M.sin (toRadQ M d))).sum *
                  (samples.map (fun d => M.sin (toRadQ M d))).sum +
                (samples.map (fun d => M.cos (toRadQ M d))).sum *
                  (samples.map (fun d => M.cos (toRadQ M d))).sum) /
              (samples.length : ℚ)) (1 / 1000000000)))) * 180 / M.pi))
    ∧ (w ∈ found.filter (stableKeep M (some m)) ↔
        w ∈ found ∧ stableKeep M (some m) w = true)
    ∧ (∀ cfg : Options, ∀ segs : List Seg,
        detectWavesV2 M cfg segs =
          (detectFound M cfg segs).filter (stableKeep M cfg.dirStdMaxDeg)) := by
  refine ⟨?_, ?_, ?_, List.mem_filter, fun _ _ => rfl⟩
  · intro h
    simp [stableKeep, circularStdDeg, h]
  · cases h : circularStdDeg M w.bearings with
    | none => simp [stableKeep, h]
    | some std =>
      simp only [stableKeep, h]
      constructor
      · intro hfalse
        refine ⟨std, rfl, ?_⟩
        have := of_decide_eq_false hfalse
        exact lt_of_not_le this
      · rintro ⟨std2, heq, hlt⟩
        have : std2 = std := by
          injection heq with h2
          exact h2.symm
        subst this
        exact decide_eq_false (not_le.mpr hlt)
  · intro samples h
    rw [circularStdDeg, if_neg h]

/-- C4 counterexample: a load that fails because fewer than 2 points were
parsed overwrites the previously loaded `points` state before the error is
raised, so the previous state is not left untouched. -/
theorem c4_counterexample :
    ([(⟨5, 6, none, none⟩ : Point)].length < 2)
    ∧ (fileChangeHandler zeroPrims cfgC4 dsC4 stC4
        (Except.ok [⟨5, 6, none, none⟩])).points ≠ stC4.points := by
  constructor
  · decide
  · decide

/-- C4 (amended): a load failing with a parse error (malformed content or
unsupported format) leaves the whole previous state untouched; a load
failing because fewer than 2 points were parsed leaves the previous
segments, stats and waves untouched but overwrites `points` with the newly
parsed list. -/
theorem c4_error_state_preserved (M : MathPrims) (cfg : Options)
    (ds : DirectionSettings) (st : AppState) :
    (∀ e : Unit, fileChangeHandler M cfg ds st (Except.error e) = st)
    ∧ (∀ pts : List Point, pts.length < 2 →
        (fileChangeHandler M cfg ds st (Except.ok pts)).segments = st.segments
        ∧ (fileChangeHandler M cfg ds st (Except.ok pts)).stats = st.stats
        ∧ (fileChangeHandler M cfg ds st (Except.ok pts)).waves = st.waves
        ∧ (fileChangeHandler M cfg ds st (Except.ok pts)).points = pts) := by
  constructor
  · intro e
    rfl
  · intro pts h
    simp [fileChangeHandler, h]

/-- C4 witness: the amended theorem applied to the concrete state and the
concrete one-point parse outcome. -/
theorem c4_witness :
    (fileChangeHandler zeroPrims cfgC4 dsC4 stC4 (Except.error ()) = stC4)
    ∧ (fileChangeHandler zeroPrims cfgC4 dsC4 stC4
        (Except.ok [⟨5, 6, none, none⟩])).segments = stC4.segments
    ∧ (fileChangeHandler zeroPrims cfgC4 dsC4 stC4
        (Except.ok [⟨5, 6, none, none⟩])).waves = stC4.waves := by
  refine ⟨(c4_error_state_preserved zeroPrims cfgC4 dsC4 stC4).1 (), ?_, ?_⟩
  · exact ((c4_error_state_preserved zeroPrims cfgC4 dsC4 stC4).2
      [⟨5, 6, none, none⟩] (by decide)).1
  · exact ((c4_error_state_preserved zeroPrims cfgC4 dsC4 stC4).2
      [⟨5, 6, none, none⟩] (by decide)).2.2.1

/-- C7 witness: the filter characterisation applied to a concrete enabled
configuration and wave list, together with a concrete evaluation. -/
theorem c7_witness :
    (runDirectionFilter dsC7 [wvC7a, wvC7b, wvC7c, wvC7d] = [wvC7a, wvC7c])
    ∧ (wvC7a ∈ runDirectionFilter dsC7 [wvC7a, wvC7b, wvC7c, wvC7d] ↔
        wvC7a ∈ [wvC7a, wvC7b, wvC7c, wvC7d] ∧ ∃ d, wvC7a.directionDeg = some d ∧
          angularDifference d dsC7.direction ≤ dsC7.tolerance) := by
  refine ⟨by norm_num [runDirectionFilter, dirKeep, dsC7, wvC7a, wvC7b, wvC7c, wvC7d,
    angularDifference, normalizeBearing, jsMod, jsTrunc, List.filter], ?_⟩
  exact (c7_direction_filter dsC7 [wvC7a, wvC7b, wvC7c, wvC7d] wvC7a rfl).1

/-- C6 witness: the stability-filter characterisation applied to concrete
candidates, with concrete evaluations under `zeroPrims`. -/
theorem c6_witness :
    (stableKeep zeroPrims (some 25) wvC6empty = true)
    ∧ (stableKeep zeroPrims (some 25) wvC6 = false ↔
        ∃ std, circularStdDeg zeroPrims wvC6.bearings = some std ∧ 25 < std)
    ∧ (stableKeep zeroPrims (some 25) wvC6 = true) := by
  have hb : wvC6.bearings = [10, 20] := rfl
  have hstd : circularStdDeg zeroPrims wvC6.bearings = some 0 := by
    rw [hb, circularStdDeg, if_neg (by simp)]
    norm_num [zeroPrims, toRadQ]
  refine ⟨(c6_stability_filter zeroPrims 25 wvC6empty []).1 rfl, ?_,
    by simp [stableKeep, hstd]⟩
  exact (c6_stability_filter zeroPrims 25 wvC6 []).2.1

-- Branch equations for one iteration of the detector loop.

theorem detectStep_over_none (cfg : Options) (lstats : Option (List (Option LocalStat)))
    (i : ℕ) (s : Seg) (f : List Candidate) (tOv tUp : ℚ)
    (h1 : overCond (thresholdAt cfg lstats i) s) :
    detectStep cfg lstats ⟨f, none, tOv, tUp⟩ i s =
      ⟨f, some (extendCand (freshCandidate i) i s (dtPos s)), 0 + dtPos s, 0⟩ := by
  unfold detectStep
  rw [if_pos h1]

theorem detectStep_over_some (cfg : Options) (lstats : Option (List (Option LocalStat)))
    (i : ℕ) (s : Seg) (f : List Candidate) (c : Candidate) (tOv tUp : ℚ)
    (h1 : overCond (thresholdAt cfg lstats i) s) :
    detectStep cfg lstats ⟨f, some c, tOv, tUp⟩ i s =
      ⟨f, some (extendCand c i s (dtPos s)), tOv + dtPos s, 0⟩ := by
  unfold detectStep
  rw [if_pos h1]

theorem detectStep_idle (cfg : Options) (lstats : Option (List (Option LocalStat)))
    (i : ℕ) (s : Seg) (f : List Candidate) (tOv tUp : ℚ)
    (h1 : ¬ overCond (thresholdAt cfg lstats i) s) :
    detectStep cfg lstats ⟨f, none, tOv, tUp⟩ i s = ⟨f, none, tOv, tUp⟩ := by
  unfold detectStep
  rw [if_neg h1]

theorem detectStep_under_fold (cfg : Options) (lstats : Option (List (Option LocalStat)))
    (i : ℕ) (s : Seg) (f : List Candidate) (c : Candidate) (tOv tUp : ℚ)
    (h1 : ¬ overCond (thresholdAt cfg lstats i) s)
    (h2 : ¬ cfg.dropPct ≤ jsDrop c s) :
    detectStep cfg lstats ⟨f, some c, tOv, tUp⟩ i s =
      ⟨f, some (extendCand c i s (dtPos s)), tOv, 0⟩ := by
  unfold detectStep
  rw [if_neg h1]
  simp only [if_neg h2]

theorem detectStep_under_stay (cfg : Options) (lstats : Option (List (Option LocalStat)))
    (i : ℕ) (s : Seg) (f : List Candidate) (c : Candidate) (tOv tUp : ℚ)
    (h1 : ¬ overCond (thresholdAt cfg lstats i) s)
    (h2 : cfg.dropPct ≤ jsDrop c s)
    (h3 : ¬ cfg.endGraceS ≤ tUp + dtPos s) :
    detectStep cfg lstats ⟨f, some c, tOv, tUp⟩ i s =
      ⟨f, some c, tOv, tUp + dtPos s⟩ := by
  unfold detectStep
  rw [if_neg h1]
  simp only [if_pos h2, if_neg h3]

theorem detectStep_under_close (cfg : Options) (lstats : Option (List (Option LocalStat)))
    (i : ℕ) (s : Seg) (f : List Candidate) (c : Candidate) (tOv tUp : ℚ)
    (h1 : ¬ overCond (thresholdAt cfg lstats i) s)
    (h2 : cfg.dropPct ≤ jsDrop c s)
    (h3 : cfg.endGraceS ≤ tUp + dtPos s) :
    detectStep cfg lstats ⟨f, some c, tOv, tUp⟩ i s =
      ⟨if cfg.minDurationS ≤ c.durationS ∧ c.segmentIndices ≠ [] then f ++ [c] else f,
        none, 0, 0⟩ := by
  unfold detectStep
  rw [if_neg h1]
  simp only [if_pos h2, if_pos h3]

-- Helper lemmas for the detector loop invariant.

theorem chainLt_append (l : List ℕ) (i : ℕ) (hc : List.Chain' (· < ·) l)
    (hb : ∀ j ∈ l, j < i) : List.Chain' (· < ·) (l ++ [i]) := by
  refine hc.append (List.chain'_singleton i) ?_
  intro x hx y hy
  have hyi : i = y := by simpa using hy
  subst hyi
  obtain ⟨hne, hxe⟩ := List.mem_getLast?_eq_getLast hx
  rw [hxe]
  exact hb _ (List.getLast_mem hne)

theorem extendCand_members (c : Candidate) (i : ℕ) (s : Seg) (dt : ℚ) :
    (extendCand c i s dt).segmentIndices = c.segmentIndices ++ [i] := rfl

theorem detectStep_stepInv (cfg : Options) (lstats : Option (List (Option LocalStat)))
    (st : DetectState) (i : ℕ) (s : Seg)
    (h : StepInv cfg i st) : StepInv cfg (i + 1) (detectStep cfg lstats st i s) := by
  obtain ⟨f, cur, tOv, tUp⟩ := st
  obtain ⟨hf, hc⟩ := h
  simp only at hf hc
  have hfound : ∀ w ∈ f,
      w.segmentIndices ≠ [] ∧ List.Chain' (· < ·) w.segmentIndices
      ∧ (∀ j ∈ w.segmentIndices, j < i + 1) ∧ cfg.minDurationS ≤ w.durationS := by
    intro w hw
    obtain ⟨h1, h2, h3, h4⟩ := hf w hw
    exact ⟨h1, h2, fun j hj => Nat.lt_succ_of_lt (h3 j hj), h4⟩
  have hext : ∀ c : Candidate,
      c.segmentIndices ≠ [] → List.Chain' (· < ·) c.segmentIndices →
      (∀ j ∈ c.segmentIndices, j < i) →
      (extendCand c i s (dtPos s)).segmentIndices ≠ []
      ∧ List.Chain' (· < ·) (extendCand c i s (dtPos s)).segmentIndices
      ∧ ∀ j ∈ (extendCand c i s (dtPos s)).segmentIndices, j < i + 1 := by
    intro c h1 h2 h3
    rw [extendCand_members]
    refine ⟨by simp, chainLt_append c.segmentIndices i h2 h3, ?_⟩
    intro j hj
    rcases List.mem_append.mp hj with hj2 | hj2
    · exact Nat.lt_succ_of_lt (h3 j hj2)
    · have : j = i := by simpa using hj2
      subst this
      exact Nat.lt_succ_self _
  by_cases hov : overCond (thresholdAt cfg lstats i) s
  · cases cur with
    | none =>
      rw [detectStep_over_none cfg lstats i s f tOv tUp hov]
      refine ⟨hfound, ?_⟩
      intro c hc2
      simp only [Option.some.injEq] at hc2
      subst hc2
      have hmem : (extendCand (freshCandidate i) i s (dtPos s)).segmentIndices = [i] := rfl
      rw [hmem]
      refine ⟨by simp, List.chain'_singleton i, ?_⟩
      intro j hj
      have : j = i := by simpa using hj
      subst this
      exact Nat.lt_succ_self _
    | some c0 =>
      rw [detectStep_over_some cfg lstats i s f c0 tOv tUp hov]
      refine ⟨hfound, ?_⟩
      intro c hc2
      simp only [Option.some.injEq] at hc2
      subst hc2
      obtain ⟨h1, h2, h3⟩ := hc c0 rfl
      exact hext c0 h1 h2 h3
  · cases cur with
    | none =>
      rw [detectStep_idle cfg lstats i s f tOv tUp hov]
      refine ⟨hfound, ?_⟩
      intro c hc2
      exact absurd hc2 (by simp)
    | some c0 =>
      by_cases hdrop : cfg.dropPct ≤ jsDrop c0 s
      · by_cases hgrace : cfg.endGraceS ≤ tUp + dtPos s
        · rw [detectStep_under_close cfg lstats i s f c0 tOv tUp hov hdrop hgrace]
          refine ⟨?_, ?_⟩
          · intro w hw
            simp only at hw
            by_cases hval : cfg.minDurationS ≤ c0.durationS ∧ c0.segmentIndices ≠ []
            · rw [if_pos hval] at hw
              rcases List.mem_append.mp hw with hmem | hmem
              · exact hfound w hmem
              · have hwc : w = c0 := by simpa using hmem
                obtain ⟨h1, h2, h3⟩ := hc c0 rfl
                rw [hwc]
                exact ⟨h1, h2, fun j hj => Nat.lt_succ_of_lt (h3 j hj), hval.1⟩
            · rw [if_neg hval] at hw
              exact hfound w hw
          · intro c hc2
            exact absurd hc2 (by simp)
        · rw [detectStep_under_stay cfg lstats i s f c0 tOv tUp hov hdrop hgrace]
          refine ⟨hfound, ?_⟩
          intro c hc2
          simp only [Option.some.injEq] at hc2
          obtain ⟨h1, h2, h3⟩ := hc c0 rfl
          rw [← hc2]
          exact ⟨h1, h2, fun j hj => Nat.lt_succ_of_lt (h3 j hj)⟩
      · rw [detectStep_under_fold cfg lstats i s f c0 tOv tUp hov hdrop]
        refine ⟨hfound, ?_⟩
        intro c hc2
        simp only [Option.some.injEq] at hc2
        subst hc2
        obtain ⟨h1, h2, h3⟩ := hc c0 rfl
        exact hext c0 h1 h2 h3

theorem detectGo_stepInv (cfg : Options) (lstats : Option (List (Option LocalStat))) :
    ∀ (rest : List Seg) (i : ℕ) (st : DetectState),
      StepInv cfg i st → StepInv cfg (i + rest.length) (detectGo cfg lstats i rest st)
  | [], i, st, h => by simpa [detectGo] using h
  | s :: rest, i, st, h => by
    have h1 := detectStep_stepInv cfg lstats st i s h
    have h2 := detectGo_stepInv cfg lstats rest (i + 1) _ h1
    have harith : i + 1 + rest.length = i + (s :: rest).length := by
      simp only [List.length_cons]
      omega
    rw [harith] at h2
    simpa [detectGo] using h2

/-- C1 counterexample: on a track whose middle segment dips below the
threshold with a large drop but whose grace window is not yet exhausted,
the emitted wave's member indices are `[0, 2]`, which is not a contiguous
run. -/
theorem c1_counterexample :
    (detectWavesV2 zeroPrims cfgC1 segsC1).map (fun w => w.segmentIndices) = [[0, 2]]
    ∧ ¬ List.Chain' (fun a b : ℕ => b = a + 1) [0, 2] := by
  refine ⟨?_, by norm_num [List.chain'_cons]⟩
  · norm_num [detectWavesV2, detectFound, detectGo, detectStep, detectFinalize,
      detectLocal, dtPos, thresholdAt, overCond, extendCand, freshCandidate, jsDrop,
      stableKeep, circularStdDeg, initDetectState, mkSegC, cfgC1, segsC1,
      List.filter, zeroPrims]

/-- C1 (amended): every wave emitted by `detectWavesV2` has a non-empty,
strictly ascending member index list within `[0, segments.length - 1]`, and
its cumulative duration is at least the configured minimum duration; the
member run is however not always contiguous (grace-period segments inside a
still-active wave are skipped). -/
theorem c1_members (M : MathPrims) (cfg : Options) (segs : List Seg) (w : Candidate)
    (hw : w ∈ detectWavesV2 M cfg segs) :
    w.segmentIndices ≠ [] ∧ List.Chain' (· < ·) w.segmentIndices
    ∧ (∀ j ∈ w.segmentIndices, j < segs.length)
    ∧ cfg.minDurationS ≤ w.durationS := by
  have hw1 : w ∈ detectFound M cfg segs := (List.mem_filter.mp hw).1
  have hinv0 : StepInv cfg 0 initDetectState := by
    constructor
    · intro w2 hw2
      simp [initDetectState] at hw2
    · intro c hc2
      simp [initDetectState] at hc2
  have hinv := detectGo_stepInv cfg (detectLocal M cfg segs) segs 0 initDetectState hinv0
  rw [Nat.zero_add] at hinv
  obtain ⟨hf, hc⟩ := hinv
  unfold detectFound detectFinalize at hw1
  cases hcur : (detectGo cfg (detectLocal M cfg segs) 0 segs initDetectState).cur with
  | none =>
    rw [hcur] at hw1
    exact hf w hw1
  | some c =>
    rw [hcur] at hw1
    simp only at hw1
    by_cases hval : cfg.minDurationS ≤ c.durationS ∧ c.segmentIndices ≠ []
    · rw [if_pos hval] at hw1
      rcases List.mem_append.mp hw1 with hmem | hmem
      · exact hf w hmem
      · have hwc : w = c := by simpa using hmem
        subst hwc
        obtain ⟨h1, h2, h3⟩ := hc w hcur
        exact ⟨h1, h2, h3, hval.1⟩
    · rw [if_neg hval] at hw1
      exact hf w hw1

/-- C1 witness: the amended theorem applied to the concretely evaluated
wave of the counterexample track. -/
theorem c1_witness :
    (waveC1 ∈ detectWavesV2 zeroPrims cfgC1 segsC1)
    ∧ waveC1.segmentIndices ≠ [] ∧ List.Chain' (· < ·) waveC1.segmentIndices
    ∧ (∀ j ∈ waveC1.segmentIndices, j < segsC1.length)
    ∧ cfgC1.minDurationS ≤ waveC1.durationS := by
  have heval : detectWavesV2 zeroPrims cfgC1 segsC1 = [waveC1] := by
    norm_num [detectWavesV2, detectFound, detectGo, detectStep, detectFinalize,
      detectLocal, dtPos, thresholdAt, overCond, extendCand, freshCandidate, jsDrop,
      stableKeep, circularStdDeg, initDetectState, mkSegC, cfgC1, segsC1,
      List.filter, zeroPrims, waveC1]
  have hmem : waveC1 ∈ detectWavesV2 zeroPrims cfgC1 segsC1 := by
    rw [heval]
    simp
  exact ⟨hmem, c1_members zeroPrims cfgC1 segsC1 waveC1 hmem⟩

/-- C5 counterexample: in non-adaptive mode, raising the fixed threshold
from 10 to 20 km/h splits one wave into two on a track with a deep mid-dip,
so the wave count increases. -/
theorem c5_counterexample :
    ((10 : ℚ) ≤ 20)
    ∧ (detectWavesV2 zeroPrims (cfgC5 10) segsC5).length = 1
    ∧ (detectWavesV2 zeroPrims (cfgC5 20) segsC5).length = 2 := by
  refine ⟨by norm_num, ?_, ?_⟩ <;>
    norm_num [detectWavesV2, detectFound, detectGo, detectStep, detectFinalize,
      detectLocal, dtPos, thresholdAt, overCond, extendCand, freshCandidate, jsDrop,
      stableKeep, circularStdDeg, initDetectState, mkSegC, cfgC5, segsC5,
      List.filter, zeroPrims]

theorem thresholdAt_none (cfg : Options) (i : ℕ) :
    thresholdAt cfg none i = cfg.baseThresholdKmh := by
  unfold thresholdAt
  cases cfg.useAdaptive <;> rfl

/-- C5 (amended): in non-adaptive mode, raising `fixedThresholdKmh` never
admits a new wave-sustaining segment — every segment satisfying the
detector's over-threshold condition at the higher threshold satisfies it at
the lower one; the emitted wave count itself is not monotone in the
threshold, since a higher threshold can split one wave into several. -/
theorem c5_over_antitone (M : MathPrims) (cfg : Options) (t1 t2 : ℚ)
    (segs : List Seg) (i : ℕ) (s : Seg)
    (hNA : cfg.useAdaptive = false) (h12 : t1 ≤ t2)
    (h : overCond
      (thresholdAt { cfg with baseThresholdKmh := t2 }
        (detectLocal M { cfg with baseThresholdKmh := t2 } segs) i) s) :
    overCond
      (thresholdAt { cfg with baseThresholdKmh := t1 }
        (detectLocal M { cfg with baseThresholdKmh := t1 } segs) i) s := by
  have hl2 : detectLocal M { cfg with baseThresholdKmh := t2 } segs = none := by
    simp [detectLocal, hNA]
  have hl1 : detectLocal M { cfg with baseThresholdKmh := t1 } segs = none := by
    simp [detectLocal, hNA]
  rw [hl2, thresholdAt_none] at h
  rw [hl1, thresholdAt_none]
  obtain ⟨hthr, hdt⟩ := h
  exact ⟨le_trans h12 hthr, hdt⟩

/-- C5 witness: the amended antitonicity applied at concrete thresholds and
a concrete over-threshold segment. -/
theorem c5_witness :
    overCond
      (thresholdAt { cfgC5 20 with baseThresholdKmh := 10 }
        (detectLocal zeroPrims { cfgC5 20 with baseThresholdKmh := 10 } segsC5) 0)
      (mkSegC 30 (some 1) none) := by
  refine c5_over_antitone zeroPrims (cfgC5 20) 10 20 segsC5 0 (mkSegC 30 (some 1) none)
    rfl (by norm_num) ?_
  constructor
  · norm_num [thresholdAt, detectLocal, cfgC5, mkSegC]
  · norm_num [dtPos, mkSegC]

/-- C2: while a candidate is active and the current segment's speed is
under the threshold, the detector computes the relative drop from the peak
(100 when the peak is 0); a drop below the configured percentage folds the
segment into the candidate exactly like an over-threshold segment with the
grace timer reset; otherwise the segment's elapsed time accrues on the
grace timer, and reaching `endGraceSeconds` closes the candidate, emitting
it if and only if its duration reaches the minimum and it has a member;
the end of the sequence closes an active candidate under the same
validation with no grace required. -/
theorem c2_active_under_threshold (cfg : Options)
    (lstats : Option (List (Option LocalStat)))
    (i : ℕ) (s : Seg) (f : List Candidate) (c : Candidate) (tOv tUp : ℚ) :
    (c.peak = 0 → jsDrop c s = 100)
    ∧ (0 < c.peak → jsDrop c s = 100 * (1 - s.speedKmh / c.peak))
    ∧ (s.speedKmh < thresholdAt cfg lstats i → jsDrop c s < cfg.dropPct →
        detectStep cfg lstats ⟨f, some c, tOv, tUp⟩ i s =
          ⟨f, some (extendCand c i s (dtPos s)), tOv, 0⟩)
    ∧ (s.speedKmh < thresholdAt cfg lstats i → cfg.dropPct ≤ jsDrop c s →
        tUp + dtPos s < cfg.endGraceS →
        detectStep cfg lstats ⟨f, some c, tOv, tUp⟩ i s =
          ⟨f, some c, tOv, tUp + dtPos s⟩)
    ∧ (s.speedKmh < thresholdAt cfg lstats i → cfg.dropPct ≤ jsDrop c s →
        cfg.endGraceS ≤ tUp + dtPos s →
        detectStep cfg lstats ⟨f, some c, tOv, tUp⟩ i s =
          ⟨if cfg.minDurationS ≤ c.durationS ∧ c.segmentIndices ≠ [] then f ++ [c]
            else f, none, 0, 0⟩)
    ∧ (overCond (thresholdAt cfg lstats i) s →
        detectStep cfg lstats ⟨f, some c, tOv, tUp⟩ i s =
          ⟨f, some (extendCand c i s (dtPos s)), tOv + dtPos s, 0⟩)
    ∧ (∀ (f2 : List Candidate) (c2 : Candidate) (tOv2 tUp2 : ℚ),
        detectFinalize cfg ⟨f2, some c2, tOv2, tUp2⟩ =
          if cfg.minDurationS ≤ c2.durationS ∧ c2.segmentIndices ≠ [] then f2 ++ [c2]
          else f2) := by
  have hnotover : s.speedKmh < thresholdAt cfg lstats i →
      ¬ overCond (thresholdAt cfg lstats i) s := by
    intro hlt hov
    exact absurd hov.1 (not_le.mpr hlt)
  refine ⟨?_, ?_, ?_, ?_, ?_, ?_, ?_⟩
  · intro hpk
    simp [jsDrop, hpk]
  · intro hpk
    rw [jsDrop, if_pos hpk]
    ring
  · intro hlt hdrop
    exact detectStep_under_fold cfg lstats i s f c tOv tUp (hnotover hlt)
      (not_le.mpr hdrop)
  · intro hlt hdrop hgrace
    exact detectStep_under_stay cfg lstats i s f c tOv tUp (hnotover hlt) hdrop
      (not_le.mpr hgrace)
  · intro hlt hdrop hgrace
    exact detectStep_under_close cfg lstats i s f c tOv tUp (hnotover hlt) hdrop hgrace
  · intro hov
    exact detectStep_over_some cfg lstats i s f c tOv tUp hov
  · intro f2 c2 tOv2 tUp2
    rfl

/-- C2 witness: the under-threshold grace accrual applied to a concrete
active state and a concrete dipping segment. -/
theorem c2_witness :
    detectStep cfgC2 none ⟨[], some candC2, 1, 0⟩ 1 segC2 =
      ⟨[], some candC2, 1, 0 + dtPos segC2⟩ := by
  refine (c2_active_under_threshold cfgC2 none 1 segC2 [] candC2 1 0).2.2.2.1
    ?_ ?_ ?_
  · norm_num [thresholdAt, cfgC2, segC2, mkSegC]
  · norm_num [jsDrop, candC2, segC2, mkSegC, cfgC2]
  · norm_num [dtPos, segC2, mkSegC, cfgC2]

-- Length and definedness of the local statistics array.

theorem lsGo_length (M : MathPrims) (winSec : ℚ) (speeds dts : List ℚ) :
    ∀ (rest : List Seg) (r l : ℕ) (sp : ℚ),
      (lsGo M winSec speeds dts r l sp rest).length = rest.length
  | [], _, _, _ => rfl
  | s :: rest, r, l, sp => by
    simp only [lsGo, List.length_cons]
    rw [lsGo_length M winSec speeds dts rest]

theorem computeLocalStats_length (M : MathPrims) (winSec : ℚ) (segs : List Seg) :
    (computeLocalStats M winSec segs).length = segs.length := by
  unfold computeLocalStats
  by_cases h : segs = [] ∨ winSec ≤ 0
  · rw [if_pos h]
    simp
  · rw [if_neg h]
    simp only [List.length_map]
    rw [lsGo_length]

theorem computeLocalStats_isSome (M : MathPrims) (winSec : ℚ) (segs : List Seg)
    (h1 : segs ≠ []) (h2 : 0 < winSec) (i : ℕ) (hi : i < segs.length) :
    ∃ ls : LocalStat, (computeLocalStats M winSec segs).getD i none = some ls := by
  unfold computeLocalStats
  rw [if_neg (by push_neg; exact ⟨h1, h2⟩)]
  have hlen : (lsGo M winSec (segs.map (fun s => s.speedKmh)) (segs.map dtFin)
      0 0 0 segs).length = segs.length := lsGo_length M winSec _ _ segs 0 0 0
  have hi2 : i < ((lsGo M winSec (segs.map (fun s => s.speedKmh)) (segs.map dtFin)
      0 0 0 segs).map (fun e => some e.2.2)).length := by
    rw [List.length_map, hlen]
    exact hi
  refine ⟨((lsGo M winSec (segs.map (fun s => s.speedKmh)) (segs.map dtFin)
      0 0 0 segs).get ⟨i, by rw [hlen]; exact hi⟩).2.2, ?_⟩
  rw [List.getD_eq_getElem?_getD, List.getElem?_eq_getElem hi2]
  simp

theorem thresholdAt_adaptive (cfg : Options) (L : List (Option LocalStat)) (i : ℕ)
    (hA : cfg.useAdaptive = true) (ls : LocalStat) (hls : L.getD i none = some ls) :
    thresholdAt cfg (some L) i =
      max cfg.baseThresholdKmh (ls.median + cfg.kSigma * ls.std) := by
  simp only [thresholdAt, hA, hls]

/-- C3: from the Idle state a candidate starts at segment `i` exactly when
the segment's speed reaches the per-segment threshold and its elapsed time
is strictly positive; the fresh candidate then has peak equal to that
segment's speed (speeds being nonnegative), start index `i` and member list
`[i]`; the threshold is the fixed configured speed in non-adaptive mode and
`max(fixed, median + kSigma * std)` of the segment's local window statistic
in adaptive mode; from the Active state no fresh candidate ever starts. -/
theorem c3_wave_start (M : MathPrims) (cfg : Options) (segs : List Seg)
    (i : ℕ) (s : Seg) (f : List Candidate) (tOv tUp : ℚ) :
    ((detectStep cfg (detectLocal M cfg segs) ⟨f, none, tOv, tUp⟩ i s).cur.isSome = true ↔
      overCond (thresholdAt cfg (detectLocal M cfg segs) i) s)
    ∧ (overCond (thresholdAt cfg (detectLocal M cfg segs) i) s →
        detectStep cfg (detectLocal M cfg segs) ⟨f, none, tOv, tUp⟩ i s =
          ⟨f, some (extendCand (freshCandidate i) i s (dtPos s)), 0 + dtPos s, 0⟩)
    ∧ (0 ≤ s.speedKmh →
        (extendCand (freshCandidate i) i s (dtPos s)).peak = s.speedKmh
        ∧ (extendCand (freshCandidate i) i s (dtPos s)).startIdx = i
        ∧ (extendCand (freshCandidate i) i s (dtPos s)).segmentIndices = [i])
    ∧ (cfg.useAdaptive = false →
        thresholdAt cfg (detectLocal M cfg segs) i = cfg.baseThresholdKmh)
    ∧ (cfg.useAdaptive = true → 0 < cfg.winSec → segs ≠ [] → i < segs.length →
        ∃ ls : LocalStat,
          (computeLocalStats M cfg.winSec segs).getD i none = some ls
          ∧ thresholdAt cfg (detectLocal M cfg segs) i =
              max cfg.baseThresholdKmh (ls.median + cfg.kSigma * ls.std))
    ∧ (∀ (c c2 : Candidate) (f2 : List Candidate) (tOv2 tUp2 : ℚ),
        (detectStep cfg (detectLocal M cfg segs) ⟨f2, some c, tOv2, tUp2⟩ i s).cur =
          some c2 →
        c2 = c ∨ c2 = extendCand c i s (dtPos s)) := by
  refine ⟨?_, ?_, ?_, ?_, ?_, ?_⟩
  · by_cases hov : overCond (thresholdAt cfg (detectLocal M cfg segs) i) s
    · rw [detectStep_over_none cfg _ i s f tOv tUp hov]
      simp [hov]
    · rw [detectStep_idle cfg _ i s f tOv tUp hov]
      simp [hov]
  · intro hov
    exact detectStep_over_none cfg _ i s f tOv tUp hov
  · intro hsp
    by_cases h0 : (0 : ℚ) < s.speedKmh
    · simp [extendCand, freshCandidate, h0]
    · have hz : s.speedKmh = 0 := le_antisymm (not_lt.mp h0) hsp
      simp [extendCand, freshCandidate, h0, hz]
  · intro hNA
    rw [detectLocal, if_neg (by simp [hNA]), thresholdAt_none]
  · intro hA hwin hne hi
    obtain ⟨ls, hls⟩ := computeLocalStats_isSome M cfg.winSec segs hne hwin i hi
    refine ⟨ls, hls, ?_⟩
    rw [detectLocal, if_pos hA]
    exact thresholdAt_adaptive cfg _ i hA ls hls
  · intro c c2 f2 tOv2 tUp2 hcur
    by_cases hov : overCond (thresholdAt cfg (detectLocal M cfg segs) i) s
    · rw [detectStep_over_some cfg _ i s f2 c tOv2 tUp2 hov] at hcur
      simp only [Option.some.injEq] at hcur
      right
      exact hcur.symm
    · by_cases hdrop : cfg.dropPct ≤ jsDrop c s
      · by_cases hgrace : cfg.endGraceS ≤ tUp2 + dtPos s
        · rw [detectStep_under_close cfg _ i s f2 c tOv2 tUp2 hov hdrop hgrace] at hcur
          exact absurd hcur (by simp)
        · rw [detectStep_under_stay cfg _ i s f2 c tOv2 tUp2 hov hdrop hgrace] at hcur
          simp only [Option.some.injEq] at hcur
          left
          exact hcur.symm
      · rw [detectStep_under_fold cfg _ i s f2 c tOv2 tUp2 hov
          (by exact hdrop)] at hcur
        simp only [Option.some.injEq] at hcur
        right
        exact hcur.symm

/-- C3 witness: the start characterisation applied to a concrete Idle state
and a concrete fast segment. -/
theorem c3_witness :
    detectStep cfgC3 (detectLocal zeroPrims cfgC3 segsC3) ⟨[], none, 0, 0⟩ 0
        (mkSegC 36 (some 10) none) =
      ⟨[], some (extendCand (freshCandidate 0) 0 (mkSegC 36 (some 10) none)
        (dtPos (mkSegC 36 (some 10) none))), 0 + dtPos (mkSegC 36 (some 10) none), 0⟩ := by
  refine (c3_wave_start zeroPrims cfgC3 segsC3 0 (mkSegC 36 (some 10) none) [] 0 0).2.1 ?_
  constructor
  · rw [(c3_wave_start zeroPrims cfgC3 segsC3 0 (mkSegC 36 (some 10) none) [] 0 0).2.2.2.1 rfl]
    norm_num [cfgC3, mkSegC]
  · norm_num [dtPos, mkSegC]

-- The grace timer of an active candidate never reaches the configured
-- grace period (for a positive grace period).

theorem detectStep_grace (cfg : Options) (lstats : Option (List (Option LocalStat)))
    (hg : 0 < cfg.endGraceS) (st : DetectState) (i : ℕ) (s : Seg)
    (hst : st.cur.isSome = true → st.timeUnderPeak < cfg.endGraceS) :
    (detectStep cfg lstats st i s).cur.isSome = true →
    (detectStep cfg lstats st i s).timeUnderPeak < cfg.endGraceS := by
  obtain ⟨f, cur, tOv, tUp⟩ := st
  by_cases hov : overCond (thresholdAt cfg lstats i) s
  · cases cur with
    | none =>
      rw [detectStep_over_none cfg lstats i s f tOv tUp hov]
      intro _
      exact hg
    | some c0 =>
      rw [detectStep_over_some cfg lstats i s f c0 tOv tUp hov]
      intro _
      exact hg
  · cases cur with
    | none =>
      rw [detectStep_idle cfg lstats i s f tOv tUp hov]
      exact hst
    | some c0 =>
      by_cases hdrop : cfg.dropPct ≤ jsDrop c0 s
      · by_cases hgrace : cfg.endGraceS ≤ tUp + dtPos s
        · rw [detectStep_under_close cfg lstats i s f c0 tOv tUp hov hdrop hgrace]
          intro h
          exact absurd h (by simp)
        · rw [detectStep_under_stay cfg lstats i s f c0 tOv tUp hov hdrop hgrace]
          intro _
          exact not_le.mp hgrace
      · rw [detectStep_under_fold cfg lstats i s f c0 tOv tUp hov hdrop]
        intro _
        exact hg

theorem detectGo_grace (cfg : Options) (lstats : Option (List (Option LocalStat)))
    (hg : 0 < cfg.endGraceS) :
    ∀ (rest : List Seg) (i : ℕ) (st : DetectState),
      (st.cur.isSome = true → st.timeUnderPeak < cfg.endGraceS) →
      ((detectGo cfg lstats i rest st).cur.isSome = true →
        (detectGo cfg lstats i rest st).timeUnderPeak < cfg.endGraceS)
  | [], i, st, hst => by simpa [detectGo] using hst
  | s :: rest, i, st, hst => by
    have h1 := detectStep_grace cfg lstats hg st i s hst
    simpa [detectGo] using
      detectGo_grace cfg lstats hg rest (i + 1) (detectStep cfg lstats st i s) h1

/-- C10: with a positive grace period, the grace timer of a reachable state
with an active candidate is strictly below the grace period, and processing
a segment with undefined or non-positive elapsed time from an active state
never closes the candidate and emits nothing — it contributes 0 to the
grace timer, and when the drop criterion is met the state is left entirely
unchanged (in particular the segment is not added as a member). -/
theorem c10_graceless_segments (cfg : Options)
    (lstats : Option (List (Option LocalStat))) (hg : 0 < cfg.endGraceS) :
    (∀ (rest : List Seg) (i : ℕ),
      ((detectGo cfg lstats i rest initDetectState).cur.isSome = true →
        (detectGo cfg lstats i rest initDetectState).timeUnderPeak < cfg.endGraceS))
    ∧ (∀ (f : List Candidate) (c : Candidate) (tOv tUp : ℚ) (i : ℕ) (s : Seg),
        tUp < cfg.endGraceS →
        (s.dtS = none ∨ ∀ t, s.dtS = some t → t ≤ 0) →
        ((detectStep cfg lstats ⟨f, some c, tOv, tUp⟩ i s).cur.isSome = true
        ∧ (detectStep cfg lstats ⟨f, some c, tOv, tUp⟩ i s).found = f
        ∧ (cfg.dropPct ≤ jsDrop c s →
            detectStep cfg lstats ⟨f, some c, tOv, tUp⟩ i s = ⟨f, some c, tOv, tUp⟩))) := by
  constructor
  · intro rest i
    exact detectGo_grace cfg lstats hg rest i initDetectState
      (by intro h; exact absurd h (by simp [initDetectState]))
  · intro f c tOv tUp i s htUp hdts
    have hdt : dtPos s = 0 := by
      rcases hdts with h | h
      · simp [dtPos, h]
      · cases hs : s.dtS with
        | none => simp [dtPos, hs]
        | some t =>
          have ht := h t hs
          simp [dtPos, hs, not_lt.mpr ht]
    have hov : ¬ overCond (thresholdAt cfg lstats i) s := by
      intro hcontra
      have h2 : 0 < dtPos s := hcontra.2
      rw [hdt] at h2
      exact lt_irrefl 0 h2
    by_cases hdrop : cfg.dropPct ≤ jsDrop c s
    · have hgrace : ¬ cfg.endGraceS ≤ tUp + dtPos s := by
        rw [hdt, add_zero]
        exact not_le.mpr htUp
      rw [detectStep_under_stay cfg lstats i s f c tOv tUp hov hdrop hgrace]
      refine ⟨rfl, rfl, ?_⟩
      intro _
      rw [hdt, add_zero]
    · rw [detectStep_under_fold cfg lstats i s f c tOv tUp hov hdrop]
      refine ⟨rfl, rfl, ?_⟩
      intro h
      exact absurd h hdrop

/-- C10 witness: a timestamp-less segment processed from a concrete active
state leaves the state unchanged. -/
theorem c10_witness :
    detectStep cfgC10 none ⟨[], some candC10, 1, 0⟩ 1 segC10 =
      ⟨[], some candC10, 1, 0⟩ := by
  refine ((c10_graceless_segments cfgC10 none (by norm_num [cfgC10])).2
    [] candC10 1 0 1 segC10 (by norm_num [cfgC10]) ?_).2.2 ?_
  · left
    rfl
  · norm_num [jsDrop, candC10, segC10, mkSegC, cfgC10]

-- Kinematics engine facts.

theorem haversine_nonneg (M : MathPrims) (alat alon blat blon : ℚ) :
    0 ≤ haversineDistanceM M alat alon blat blon := by
  simp only [haversineDistanceM]
  exact mul_nonneg (by norm_num) (M.asin_nonneg _ (M.sqrt_nonneg _))

theorem segGo_length (M : MathPrims) :
    ∀ (rest : List Point) (prev : Option Seg) (a : Point),
      (segGo M prev a rest).length = rest.length
  | [], _, _ => rfl
  | b :: rest, prev, a => by
    simp only [segGo, List.length_cons]
    rw [segGo_length M rest]

theorem segGo_mem (M : MathPrims) :
    ∀ (rest : List Point) (prev : Option Seg) (a : Point) (seg : Seg),
      seg ∈ segGo M prev a rest → ∃ (p : Option Seg) (x y : Point), seg = mkSeg M p x y
  | [], _, _, _, h => absurd h (by simp [segGo])
  | b :: rest, prev, a, seg, h => by
    simp only [segGo, List.mem_cons] at h
    rcases h with h | h
    · exact ⟨prev, a, b, h⟩
    · exact segGo_mem M rest _ b seg h

theorem mkSeg_props (M : MathPrims) (p : Option Seg) (a b : Point) :
    (∀ t, (mkSeg M p a b).dtS = some t → 0 < t →
        (mkSeg M p a b).speedKmh = 3.6 * ((mkSeg M p a b).distM / t))
    ∧ (((mkSeg M p a b).dtS = none ∨ ∃ t, (mkSeg M p a b).dtS = some t ∧ t ≤ 0) →
        (mkSeg M p a b).speedKmh = 0)
    ∧ 0 ≤ (mkSeg M p a b).speedKmh
    ∧ (∀ bg, (mkSeg M p a b).bearingDeg = some bg → 0 ≤ bg ∧ bg < 360) := by
  have hd : 0 ≤ haversineDistanceM M a.lat a.lon b.lat b.lon :=
    haversine_nonneg M a.lat a.lon b.lat b.lon
  refine ⟨?_, ?_, ?_, ?_⟩
  · intro t ht h0
    cases hta : a.time with
    | none => simp [mkSeg, hta] at ht
    | some tA =>
      cases htb : b.time with
      | none => simp [mkSeg, hta, htb] at ht
      | some tB =>
        simp only [mkSeg, hta, htb, Option.some.injEq] at ht ⊢
        rw [if_pos (ht ▸ h0)]
        rw [ht]
        ring
  · intro h
    cases hta : a.time with
    | none => simp [mkSeg, hta]
    | some tA =>
      cases htb : b.time with
      | none => simp [mkSeg, hta, htb]
      | some tB =>
        rcases h with h | ⟨t, ht, ht0⟩
        · simp [mkSeg, hta, htb] at h
        · simp only [mkSeg, hta, htb, Option.some.injEq] at ht ⊢
          rw [if_neg (by rw [ht]; exact not_lt.mpr ht0)]
          norm_num
  · cases hta : a.time with
    | none => simp [mkSeg, hta]
    | some tA =>
      cases htb : b.time with
      | none => simp [mkSeg, hta, htb]
      | some tB =>
        simp only [mkSeg, hta, htb]
        by_cases h0 : 0 < (tB - tA) / 1000
        · rw [if_pos h0]
          have : 0 ≤ haversineDistanceM M a.lat a.lon b.lat b.lon / ((tB - tA) / 1000) :=
            div_nonneg hd (le_of_lt h0)
          nlinarith
        · rw [if_neg h0]
          norm_num
  · intro bg hbg
    have : bg = bearingDegQ M a.lat a.lon b.lat b.lon := by
      simpa [mkSeg] using hbg.symm
    rw [this]
    unfold bearingDegQ
    exact ⟨(normalizeBearing_mem _).1, (normalizeBearing_mem _).2⟩

/-- C8: for a point sequence of at least 2 points the kinematics engine
produces exactly `points.length - 1` segments; each segment's speed is
`3.6 * distance / elapsed` when the elapsed time is defined and positive
and 0 when it is undefined or non-positive (hence never negative), and its
bearing, when defined, lies in `[0, 360)`. -/
theorem c8_kinematics (M : MathPrims) (pts : List Point) (hlen : 2 ≤ pts.length) :
    (computeSegments M pts).length = pts.length - 1
    ∧ ∀ seg ∈ computeSegments M pts,
        (∀ t, seg.dtS = some t → 0 < t → seg.speedKmh = 3.6 * (seg.distM / t))
        ∧ ((seg.dtS = none ∨ ∃ t, seg.dtS = some t ∧ t ≤ 0) → seg.speedKmh = 0)
        ∧ 0 ≤ seg.speedKmh
        ∧ ∀ bg, seg.bearingDeg = some bg → 0 ≤ bg ∧ bg < 360 := by
  constructor
  · cases pts with
    | nil => rfl
    | cons a rest =>
      simp only [computeSegments, List.length_cons]
      rw [segGo_length M rest]
      omega
  · intro seg hseg
    cases pts with
    | nil => simp [computeSegments] at hseg
    | cons a rest =>
      obtain ⟨p, x, y, rfl⟩ := segGo_mem M rest none a seg hseg
      exact mkSeg_props M p x y

/-- C8 witness: the kinematics facts applied to a concrete three-point
track. -/
theorem c8_witness :
    (computeSegments zeroPrims ptsC8).length = ptsC8.length - 1
    ∧ 0 ≤ (mkSeg zeroPrims none ⟨1, 2, none, some 0⟩ ⟨3, 4, none, some 10000⟩).speedKmh := by
  have h := c8_kinematics zeroPrims ptsC8 (by norm_num [ptsC8])
  refine ⟨h.1, ?_⟩
  have hmem : mkSeg zeroPrims none ⟨1, 2, none, some 0⟩ ⟨3, 4, none, some 10000⟩ ∈
      computeSegments zeroPrims ptsC8 := by
    simp [computeSegments, segGo, ptsC8]
  exact (h.2 _ hmem).2.2.1

-- Window arithmetic for the local-statistics two-pointer loop.

theorem windowStat_std (M : MathPrims) (slice : List ℚ) :
    (windowStat M slice).std = M.sqrt (sampleVarianceSpec slice) := by
  have hperm : (slice.insertionSort (· ≤ ·)).Perm slice := List.perm_insertionSort _ slice
  have hlen : (slice.insertionSort (· ≤ ·)).length = slice.length := hperm.length_eq
  have hsum : (slice.insertionSort (· ≤ ·)).sum = slice.sum := hperm.sum_eq
  simp only [windowStat, sampleVarianceSpec]
  congr 1
  rw [hlen, hsum]
  congr 1
  exact (hperm.map _).sum_eq

theorem drop_take_sum_peel (dts : List ℚ) (l r : ℕ) (hlr : l < r + 1) (hl : l < dts.length) :
    ((dts.drop l).take (r + 1 - l)).sum =
      dts.getD l 0 + ((dts.drop (l + 1)).take (r + 1 - (l + 1))).sum := by
  rw [List.drop_eq_getElem_cons hl]
  have h1 : r + 1 - l = (r - l) + 1 := by omega
  rw [h1, List.take_succ_cons, List.sum_cons]
  have h2 : r - l = r + 1 - (l + 1) := by omega
  rw [h2, List.getD_eq_getElem?_getD, List.getElem?_eq_getElem hl]
  rfl

theorem drop_take_sum_snoc (dts : List ℚ) (l r : ℕ) (hl : l ≤ r) (hr : r < dts.length) :
    ((dts.drop l).take (r + 1 - l)).sum =
      ((dts.drop l).take (r - l)).sum + dts.getD r 0 := by
  have h1 : r + 1 - l = (r - l) + 1 := by omega
  rw [h1, List.take_succ, List.sum_append]
  have h2 : (dts.drop l)[r - l]? = some dts[r] := by
    rw [List.getElem?_drop]
    have h3 : l + (r - l) = r := by omega
    rw [h3]
    exact List.getElem?_eq_getElem hr
  rw [h2, List.getD_eq_getElem?_getD, List.getElem?_eq_getElem hr]
  simp

theorem shrinkLeft_spec (winSec : ℚ) (dts : List ℚ) :
    ∀ (fuel left : ℕ) (span : ℚ) (r : ℕ), left + fuel = r → r < dts.length →
      span = ((dts.drop left).take (r + 1 - left)).sum →
      left ≤ (shrinkLeft winSec dts fuel left span).1
      ∧ (shrinkLeft winSec dts fuel left span).1 ≤ r
      ∧ (shrinkLeft winSec dts fuel left span).2 =
          ((dts.drop (shrinkLeft winSec dts fuel left span).1).take
            (r + 1 - (shrinkLeft winSec dts fuel left span).1)).sum
      ∧ ((shrinkLeft winSec dts fuel left span).2 ≤ winSec
          ∨ (shrinkLeft winSec dts fuel left span).1 = r)
  | 0, left, span, r, hfuel, hr, hspan => by
    simp only [shrinkLeft]
    exact ⟨le_refl _, by omega, hspan, Or.inr (by omega)⟩
  | fuel + 1, left, span, r, hfuel, hr, hspan => by
    by_cases hgt : winSec < span
    · have hl : left < dts.length := by omega
      have hpeel := drop_take_sum_peel dts left r (by omega) hl
      have hspan2 : span - dts.getD left 0 =
          ((dts.drop (left + 1)).take (r + 1 - (left + 1))).sum := by
        rw [hspan, hpeel]
        ring
      have ih := shrinkLeft_spec winSec dts fuel (left + 1) (span - dts.getD left 0) r
        (by omega) hr hspan2
      simp only [shrinkLeft, if_pos hgt]
      exact ⟨le_trans (Nat.le_succ left) ih.1, ih.2.1, ih.2.2.1, ih.2.2.2⟩
    · simp only [shrinkLeft, if_neg hgt]
      exact ⟨le_refl _, by omega, hspan, Or.inl (not_lt.mp hgt)⟩

theorem lsGo_spec (M : MathPrims) (winSec : ℚ) (segs : List Seg) :
    ∀ (rest : List Seg) (right left : ℕ) (span : ℚ),
      rest = segs.drop right → left ≤ right →
      span = (((segs.map dtFin).drop left).take (right - left)).sum →
      (∀ e ∈ lsGo M winSec (segs.map (fun s => s.speedKmh)) (segs.map dtFin)
          right left span rest, left ≤ e.1)
      ∧ List.Chain' (fun e1 e2 => e1.1 ≤ e2.1)
          (lsGo M winSec (segs.map (fun s => s.speedKmh)) (segs.map dtFin)
            right left span rest)
      ∧ ∀ (k : ℕ) (hk : k < (lsGo M winSec (segs.map (fun s => s.speedKmh))
            (segs.map dtFin) right left span rest).length),
          entryOk M winSec (segs.map (fun s => s.speedKmh)) (segs.map dtFin) (right + k)
            ((lsGo M winSec (segs.map (fun s => s.speedKmh)) (segs.map dtFin)
              right left span rest).get ⟨k, hk⟩)
  | [], right, left, span, hrest, hleft, hspan => by
    refine ⟨by simp [lsGo], by simp [lsGo], ?_⟩
    intro k hk
    simp [lsGo] at hk
  | s :: rest2, right, left, span, hrest, hleft, hspan => by
    have hrlen : right < segs.length := by
      have hlen := congrArg List.length hrest
      simp only [List.length_cons, List.length_drop] at hlen
      omega
    have hdrop := List.drop_eq_getElem_cons hrlen
    rw [hdrop] at hrest
    have hs : s = segs[right] := (List.cons.injEq _ _ _ _ ▸ hrest).1
    have hrest2 : rest2 = segs.drop (right + 1) := (List.cons.injEq _ _ _ _ ▸ hrest).2
    have hdts_len : (segs.map dtFin).length = segs.length := List.length_map _ _
    have hdt_at : dtFin s = (segs.map dtFin).getD right 0 := by
      rw [List.getD_eq_getElem?_getD,
        List.getElem?_eq_getElem (by rw [hdts_len]; exact hrlen)]
      simp [hs]
    have hspan1 : span + dtFin s =
        (((segs.map dtFin).drop left).take (right + 1 - left)).sum := by
      rw [drop_take_sum_snoc (segs.map dtFin) left right hleft
        (by rw [hdts_len]; exact hrlen), hspan, hdt_at]
    have hshr := shrinkLeft_spec winSec (segs.map dtFin) (right - left) left
      (span + dtFin s) right (by omega) (by rw [hdts_len]; exact hrlen) hspan1
    obtain ⟨hL1, hL2, hSpan, hPost⟩ := hshr
    have ih := lsGo_spec M winSec segs rest2 (right + 1)
      (shrinkLeft winSec (segs.map dtFin) (right - left) left (span + dtFin s)).1
      (shrinkLeft winSec (segs.map dtFin) (right - left) left (span + dtFin s)).2
      hrest2 (le_trans hL2 (Nat.le_succ right)) (by rw [hSpan])
    obtain ⟨ihAll, ihChain, ihEntry⟩ := ih
    simp only [lsGo]
    refine ⟨?_, ?_, ?_⟩
    · intro e he
      rcases List.mem_cons.mp he with he | he
      · rw [he]
        exact hL1
      · exact le_trans hL1 (ihAll e he)
    · rw [List.chain'_cons']
      refine ⟨?_, ihChain⟩
      intro e he
      exact ihAll e (List.mem_of_mem_head? he)
    · intro k hk
      cases k with
      | zero =>
        simp only [List.get]
        refine ⟨by simpa using hL2, rfl, ?_, ?_⟩
        · simpa using hSpan
        · simpa using hPost
      | succ k2 =>
        have hk2 : k2 < (lsGo M winSec (segs.map (fun s => s.speedKmh)) (segs.map dtFin)
            (right + 1)
            (shrinkLeft winSec (segs.map dtFin) (right - left) left (span + dtFin s)).1
            (shrinkLeft winSec (segs.map dtFin) (right - left) left (span + dtFin s)).2
            rest2).length := by
          simp only [List.length_cons] at hk
          omega
        have := ihEntry k2 hk2
        have harith : right + 1 + k2 = right + (k2 + 1) := by omega
        rw [harith] at this
        simpa using this

theorem window_slice_ne_nil (speeds : List ℚ) (l k : ℕ) (hl : l ≤ k)
    (hk : k < speeds.length) : (speeds.drop l).take (k + 1 - l) ≠ [] := by
  intro hcon
  have hlen := congrArg List.length hcon
  simp only [List.length_take, List.length_drop, List.length_nil] at hlen
  omega

/-- C9: for a non-empty segment array and a positive window length, the
local-statistics computation returns one defined `(median, std)` pair per
segment index; there is a trace of left pointers, monotonically
non-decreasing and trailing the right index, such that each returned pair
is the windowed statistic of the speed values over the index window
`[left k .. k]`, the accumulated elapsed time of that window does not
exceed the window length unless the window is the single segment `k`, and
the standard deviation of a windowed statistic is the square root of the
Bessel-corrected sample variance of the (unsorted) window values. -/
theorem c9_local_stats (M : MathPrims) (winSec : ℚ) (segs : List Seg)
    (hs : segs ≠ []) (hw : 0 < winSec) :
    (computeLocalStats M winSec segs).length = segs.length
    ∧ (∃ trace : List (ℕ × ℚ × LocalStat),
        computeLocalStats M winSec segs = trace.map (fun e => some e.2.2)
        ∧ List.Chain' (fun e1 e2 => e1.1 ≤ e2.1) trace
        ∧ trace.length = segs.length
        ∧ ∀ (k : ℕ) (hk : k < trace.length),
            (trace.get ⟨k, hk⟩).1 ≤ k
            ∧ (trace.get ⟨k, hk⟩).2.2 =
                windowStat M (((segs.map (fun s => s.speedKmh)).drop
                  (trace.get ⟨k, hk⟩).1).take (k + 1 - (trace.get ⟨k, hk⟩).1))
            ∧ (trace.get ⟨k, hk⟩).2.1 =
                (((segs.map dtFin).drop (trace.get ⟨k, hk⟩).1).take
                  (k + 1 - (trace.get ⟨k, hk⟩).1)).sum
            ∧ ((trace.get ⟨k, hk⟩).2.1 ≤ winSec ∨ (trace.get ⟨k, hk⟩).1 = k))
    ∧ ∀ slice : List ℚ,
        (windowStat M slice).std = M.sqrt (sampleVarianceSpec slice) := by
  have hcond : ¬ (segs = [] ∨ winSec ≤ 0) := by
    push_neg
    exact ⟨hs, hw⟩
  refine ⟨computeLocalStats_length M winSec segs, ?_, windowStat_std M⟩
  refine ⟨lsGo M winSec (segs.map (fun s => s.speedKmh)) (segs.map dtFin) 0 0 0 segs,
    ?_, ?_, ?_, ?_⟩
  · rw [computeLocalStats, if_neg hcond]
  · exact (lsGo_spec M winSec segs segs 0 0 0 (by simp) (le_refl 0) (by simp)).2.1
  · exact lsGo_length M winSec _ _ segs 0 0 0
  · intro k hk
    have hlen : (lsGo M winSec (segs.map (fun s => s.speedKmh)) (segs.map dtFin)
        0 0 0 segs).length = segs.length := lsGo_length M winSec _ _ segs 0 0 0
    have hent := (lsGo_spec M winSec segs segs 0 0 0 (by simp) (le_refl 0)
      (by simp)).2.2 k hk
    rw [Nat.zero_add] at hent
    obtain ⟨h1, h2, h3, h4⟩ := hent
    have hkspeeds : k < (segs.map (fun s => s.speedKmh)).length := by
      rw [List.length_map]
      omega
    refine ⟨h1, ?_, h3, h4⟩
    rw [h2, statAt,
      if_neg (window_slice_ne_nil (segs.map (fun s => s.speedKmh)) _ k h1 hkspeeds)]

/-- C9 witness: the local-statistics theorem applied to a concrete track,
with the concrete evaluation of the returned statistics. -/
theorem c9_witness :
    computeLocalStats zeroPrims 8 segsC9 =
      [some ⟨10, 0⟩, some ⟨15, 0⟩, some ⟨25, 0⟩]
    ∧ (computeLocalStats zeroPrims 8 segsC9).length = segsC9.length := by
  refine ⟨?_, (c9_local_stats zeroPrims 8 segsC9 (by simp [segsC9])
    (by norm_num)).1⟩
  norm_num [computeLocalStats, lsGo, shrinkLeft, statAt, windowStat, dtFin, segsC9,
    mkSegC, zeroPrims, List.insertionSort, List.orderedInsert]
  simp
